import Mathlib

/-!
Verification development for agoric_restarter.py, a script that restarts the
ag-chain-cosmos systemd service n times, measures for each restart the time
from the "Started Agoric Cosmos daemon." journal line to the first
"block-manager: block N begin" line, and prints summary statistics.

Modelling conventions:
* journal timestamps are the exact integer value produced by
  int(msg["__REALTIME_TIMESTAMP"]) (microseconds); durations are integer
  differences in microseconds.  The float round-trip through
  datetime.fromtimestamp(ts / 10**6) is treated as exact.
* Python ints are unbounded, as is Lean's Int; datetime.timedelta range
  limits (about 10**9 days) are not modelled.
* the regular-expression class \d, which in Python matches any Unicode
  decimal digit, is modelled as the ASCII digits via Char.isDigit.
-/

def SERVICE_NAME : String := "ag-chain-cosmos.service"

/- START_MESSAGE = ".*Started Agoric Cosmos daemon.$"
   END_MESSAGE   = ".*block-manager: block \d+ begin$"

   Python re.match(p, s) semantics for these two patterns: the match is
   anchored at the start of s; "." matches any character except a newline;
   "$" matches at the end of s or just before a trailing newline.  Hence
   re.match(START_MESSAGE, s) succeeds iff s, after discarding one optional
   trailing newline, contains no newline and ends with the literal
   "Started Agoric Cosmos daemon" followed by one further character; the
   END_MESSAGE case is analogous with a nonempty digit run.  The matchers
   below work on the reversed character list of s so that suffix conditions
   become isPrefixOf conditions. -/

def startLitRev : List Char := "Started Agoric Cosmos daemon".data.reverse

def endTailRev : List Char := " begin".data.reverse

def endHeadRev : List Char := "block-manager: block ".data.reverse

/-- Drop the trailing newline of the original string, i.e. the head of the
reversed character list, if present ("$" may match just before it). -/
def stripRev : List Char → List Char
  | '\n' :: t => t
  | l => l

/-- re.match(START_MESSAGE, s), taking the reversed character list of s. -/
def matchStartRev (r : List Char) : Bool :=
  let l := stripRev r
  !l.isEmpty && l.all (fun c => c != '\n') && startLitRev.isPrefixOf l.tail

/-- re.match(END_MESSAGE, s), taking the reversed character list of s. -/
def matchEndRev (r : List Char) : Bool :=
  let l := stripRev r
  l.all (fun c => c != '\n') && endTailRev.isPrefixOf l &&
    !((l.drop 6).takeWhile Char.isDigit).isEmpty &&
    endHeadRev.isPrefixOf ((l.drop 6).dropWhile Char.isDigit)

/-- Whether re.match(START_MESSAGE, message) succeeds. -/
def re_match_start (message : String) : Bool :=
  matchStartRev message.data.reverse

/-- Whether re.match(END_MESSAGE, message) succeeds. -/
def re_match_end (message : String) : Bool :=
  matchEndRev message.data.reverse

/-- The JSON value found under "__REALTIME_TIMESTAMP": either one on which
int() succeeds with the given value, or one on which int() raises. -/
inductive TimestampField where
  | numeric (value : Int)
  | nonNumeric
deriving DecidableEq, Repr

/-- The JSON value found under "MESSAGE": either a string, or a non-string
value (isinstance(message, str) is False). -/
inductive MessageField where
  | text (s : String)
  | nonText
deriving DecidableEq, Repr

/-- A parsed journal record, restricted to the two fields the script reads;
either field may be absent from the JSON object. -/
structure LogEntry where
  realtime : Option TimestampField
  message : Option MessageField
deriving DecidableEq, Repr

/-- One line of journalctl output as consumed by read_log: read_json
(json.loads) either raises or yields a record. -/
inductive LogLine where
  | malformed
  | parsed (msg : LogEntry)
deriving DecidableEq, Repr

/-- Exceptions the script can raise (all uncaught). -/
inductive PyError where
  | jsonDecode
  | keyError (field : String)
  | intParse
  | emptyMin
deriving DecidableEq, Repr

/-- Outcome of one iteration of the loop body of check_message. -/
inductive EntryOut where
  | next (start_timestamp : Option Int)
  | found (restart : Int)
  | raised (e : PyError)
deriving DecidableEq, Repr

/-- The loop body of check_message on one yielded line, in source order:
json decoding (inside read_log), the timestamp read and int() conversion,
the MESSAGE read, the isinstance skip, then the two pattern tests.
start_timestamp is none for the initial 0 (falsy) and some ts once a start
match recorded the (truthy) datetime built from ts. -/
def checkEntry (start_timestamp : Option Int) : LogLine → EntryOut
  | .malformed => .raised .jsonDecode
  | .parsed msg =>
    match msg.realtime with
    | none => .raised (.keyError "__REALTIME_TIMESTAMP")
    | some .nonNumeric => .raised .intParse
    | some (.numeric timestamp) =>
      match msg.message with
      | none => .raised (.keyError "MESSAGE")
      | some .nonText => .next start_timestamp
      | some (.text message) =>
        if re_match_start message then .next (some timestamp)
        else
          match start_timestamp with
          | some start_ts =>
            if re_match_end message then .found (timestamp - start_ts)
            else .next (some start_ts)
          | none => .next none

/-- Result of running check_message over a finite prefix of the log stream:
it returned a timedelta, crashed on an uncaught exception, or consumed the
prefix and is still waiting (the stream is infinite; running means it would
keep blocking on the rest). -/
inductive StepResult where
  | returned (restart : Int)
  | crashed (e : PyError)
  | running (start_timestamp : Option Int)
deriving DecidableEq, Repr

/-- check_message of the source, folded over a finite prefix of the lines
yielded by read_log, starting from the given start_timestamp state. -/
def check_message (start_timestamp : Option Int) : List LogLine → StepResult
  | [] => .running start_timestamp
  | ln :: rest =>
    match checkEntry start_timestamp ln with
    | .next s => check_message s rest
    | .found d => .returned d
    | .raised e => .crashed e

/-- The line is a start-pattern match: well formed and its string message
matches START_MESSAGE. -/
def isStart : LogLine → Bool
  | .parsed ⟨some (.numeric _), some (.text m)⟩ => re_match_start m
  | _ => false

/-- The line is a ready-pattern match: well formed and its string message
matches END_MESSAGE. -/
def isReady : LogLine → Bool
  | .parsed ⟨some (.numeric _), some (.text m)⟩ => re_match_end m
  | _ => false

/-- The timestamp of a well-formed line (0 as a junk default otherwise). -/
def tsOf : LogLine → Int
  | .parsed ⟨some (.numeric t), _⟩ => t
  | _ => 0

/-- A line the matcher survives: it parses as a record carrying a
Unix-timestamp int() accepts and some MESSAGE value. -/
def wfLine : LogLine → Bool
  | .parsed ⟨some (.numeric _), some _⟩ => true
  | _ => false

/-- The first n lines of an infinite log stream. -/
def streamTake (s : Nat → LogLine) (n : Nat) : List LogLine :=
  (List.range n).map s

/-- check_message run from its initial state over the first n lines of an
infinite log stream. -/
def prefixRun (s : Nat → LogLine) (n : Nat) : StepResult :=
  check_message none (streamTake s n)

/-- restart_service of the source: subprocess.call(["systemctl", "restart",
SERVICE_NAME]) produced the given return code; a non-zero code prints the
diagnostic naming the service and the code and calls sys.exit(1). -/
def restart_service (return_code : Int) : Except (String × Int) Unit :=
  if return_code != 0 then .error (SERVICE_NAME, return_code) else .ok ()

/-- The external world of one run: the systemctl return code observed on
cycle num, and the journalctl lines read on cycle num (num counts from 1 as
in the source). -/
structure Env where
  restartCode : Nat → Int
  logs : Nat → List LogLine

/-- How a run of restart_by_count (and of main) can end: a normal return
with the accumulated list, process termination via sys.exit with the
printed diagnostic and the exit code, an uncaught exception, or blocking
forever inside check_message (soFar lists the durations already measured). -/
inductive RunRes where
  | ok (results : List Int)
  | exited (diagnostic : String × Int) (exitCode : Nat)
  | exn (e : PyError)
  | blocked (soFar : List Int)
deriving DecidableEq, Repr

/-- The loop of restart_by_count: num is the current cycle number, fuel the
number of cycles still to run, acc the restart_timedelta list built so far
(restart_timedelta.append preserves order). -/
def restart_by_count_from (env : Env) : Nat → Nat → List Int → RunRes
  | _, 0, acc => .ok acc
  | num, fuel + 1, acc =>
    match restart_service (env.restartCode num) with
    | .error diag => .exited diag 1
    | .ok _ =>
      match check_message none (env.logs num) with
      | .returned r => restart_by_count_from env (num + 1) fuel (acc ++ [r])
      | .crashed e => .exn e
      | .running _ => .blocked acc

/-- restart_by_count of the source: for num in range(1, count + 1) restart
the service and measure; range(1, count + 1) has max(count, 0) = Int.toNat
count iterations, so a zero or negative count runs no cycle at all. -/
def restart_by_count (env : Env) (count : Int) : RunRes :=
  restart_by_count_from env 1 count.toNat []

/-- Python divmod on ints is floor division; for us the divisor is a
positive length. -/
def py_divmod (a b : Int) : Int × Int :=
  (Int.fdiv a b, Int.fmod a b)

/-- datetime._divide_and_round, the rounding used by timedelta / int:
round half to even on the quotient. -/
def divide_and_round (a b : Int) : Int :=
  let q := (py_divmod a b).1
  let r := 2 * (py_divmod a b).2
  let greater_than_half := if b > 0 then r > b else r < b
  if greater_than_half ∨ (r = b ∧ Int.fmod q 2 = 1) then q + 1 else q

/-- The values printed by print_results: Restarts, Total time, min, max,
avg. -/
structure Summary where
  restarts : Nat
  total : Int
  minT : Int
  maxT : Int
  avg : Int
deriving DecidableEq, Repr

/-- print_results of the source: min() and max() of an empty list raise
ValueError, so the empty case errors before printing anything; otherwise
min/max fold over the list from its head, total is sum(restarts,
timedelta()), and avg is total_time / r with timedelta integer division
(round half to even on microseconds). -/
def print_results (restarts : List Int) : Except PyError Summary :=
  match restarts with
  | [] => .error .emptyMin
  | a :: t =>
    let min_time := t.foldl min a
    let max_time := t.foldl max a
    let total_time := (a :: t).foldl (· + ·) 0
    let r := (a :: t).length
    let avg_time := divide_and_round total_time (r : Int)
    .ok ⟨r, total_time, min_time, max_time, avg_time⟩

/-- How main can end: the printed summary (then exit code 0), sys.exit
termination, an uncaught exception, or blocking inside a cycle. -/
inductive MainRes where
  | summary (s : Summary)
  | exited (diagnostic : String × Int) (exitCode : Nat)
  | exn (e : PyError)
  | blocked (soFar : List Int)
deriving DecidableEq, Repr

/-- main of the source (named mainProg since Lean reserves main): restart_by_count then print_results. -/
def mainProg (env : Env) (count : Int) : MainRes :=
  match restart_by_count env count with
  | .ok restarts =>
    match print_results restarts with
    | .ok s => .summary s
    | .error e => .exn e
  | .exited d c => .exited d c
  | .exn e => .exn e
  | .blocked acc => .blocked acc

/-- Position i of the list is a start-pattern match. -/
def startAt (L : List LogLine) (i : Nat) : Prop :=
  ∃ h : i < L.length, isStart (L.get ⟨i, h⟩) = true

/-- Position j of the list is a ready-pattern match. -/
def readyAt (L : List LogLine) (j : Nat) : Prop :=
  ∃ h : j < L.length, isReady (L.get ⟨j, h⟩) = true

/-- No start-pattern match of the list is followed, later in the list, by a
ready-pattern match. -/
def NoPair (L : List LogLine) : Prop :=
  ∀ i j, i < j → startAt L i → readyAt L j → False

/-- A concrete start-match line with timestamp 10. -/
def sampleStart : LogLine :=
  .parsed ⟨some (.numeric 10), some (.text "Started Agoric Cosmos daemon.")⟩

/-- A concrete ready-match line with timestamp 25. -/
def sampleReady : LogLine :=
  .parsed ⟨some (.numeric 25), some (.text "block-manager: block 1 begin")⟩

/-- A concrete start-match line with timestamp 30. -/
def sampleStart2 : LogLine :=
  .parsed ⟨some (.numeric 30), some (.text "Started Agoric Cosmos daemon.")⟩

/-- A concrete ready-match line with timestamp 40. -/
def sampleReady2 : LogLine :=
  .parsed ⟨some (.numeric 40), some (.text "block-manager: block 2 begin")⟩

/-- A concrete well-formed line matching neither pattern. -/
def sampleOther : LogLine :=
  .parsed ⟨some (.numeric 0), some (.text "x")⟩

/-- A log with two start/ready pairs: start@10, ready@25, start@30,
ready@40. -/
def cexList : List LogLine := [sampleStart, sampleReady, sampleStart2, sampleReady2]

/-- A world whose supervisor always fails with return code 1. -/
def envFail : Env := ⟨fun _ => 1, fun _ => []⟩

/-- A world whose supervisor always succeeds and whose log always shows
start@10 then ready@25. -/
def envGood : Env := ⟨fun _ => 0, fun _ => [sampleStart, sampleReady]⟩

/-! Basic facts about the two patterns and the loop body. -/

/-- No message matches both patterns: a START_MESSAGE match ends with the
literal "daemon" followed by one character, an END_MESSAGE match ends with
"begin", and the characters two places before the end disagree. -/
theorem matchRev_disjoint (r : List Char) (hs : matchStartRev r = true) :
    matchEndRev r = false := by
  unfold matchStartRev at hs
  simp only [Bool.and_eq_true] at hs
  obtain ⟨⟨hne, -⟩, hpre⟩ := hs
  rw [ List.isPrefixOf_iff_prefix] at hpre
  rcases hhd : stripRev r with _ | ⟨c, t⟩
  · rw [hhd] at hne
    simp at hne
  · rw [hhd] at hpre
    simp only [List.tail_cons] at hpre
    have hcons : c :: startLitRev <+: c :: t :=
      List.cons_prefix_cons.2 ⟨rfl, hpre⟩
    have hendfalse : endTailRev.isPrefixOf (stripRev r) = false := by
      rw [Bool.eq_false_iff]
      intro hend
      rw [ List.isPrefixOf_iff_prefix, hhd] at hend
      rcases List.prefix_or_prefix_of_prefix hend hcons with h | h
      · rw [show endTailRev = 'n' :: 'i' :: 'g' :: 'e' :: 'b' :: [' '] from rfl,
          List.cons_prefix_cons] at h
        obtain ⟨-, h⟩ := h
        rw [List.prefix_iff_eq_take] at h
        exact absurd h (by decide)
      · have hle := h.length_le
        have h1 : endTailRev.length = 6 := by decide
        have h2 : startLitRev.length = 28 := by decide
        rw [List.length_cons, h1, h2] at hle
        omega
    unfold matchEndRev
    simp [hendfalse]

/-- String-level consequence: a message matching the ready pattern does not
match the start pattern. -/
theorem ready_not_start (m : String) (h : re_match_end m = true) :
    re_match_start m = false := by
  rw [Bool.eq_false_iff]
  intro hstart
  rw [re_match_end, matchRev_disjoint _ hstart] at h
  exact Bool.false_ne_true h

/-- Destructor for a start-pattern line. -/
theorem isStart_shape (ln : LogLine) (h : isStart ln = true) :
    ∃ t m, ln = .parsed ⟨some (.numeric t), some (.text m)⟩ ∧
      re_match_start m = true ∧ tsOf ln = t := by
  rcases ln with _ | ⟨⟨rt, mm⟩⟩
  · simp [isStart] at h
  · rcases rt with _ | tf
    · simp [isStart] at h
    · rcases tf with t | _
      · rcases mm with _ | mf
        · simp [isStart] at h
        · rcases mf with m | _
          · exact ⟨t, m, rfl, h, rfl⟩
          · simp [isStart] at h
      · simp [isStart] at h

/-- Destructor for a ready-pattern line. -/
theorem isReady_shape (ln : LogLine) (h : isReady ln = true) :
    ∃ t m, ln = .parsed ⟨some (.numeric t), some (.text m)⟩ ∧
      re_match_end m = true ∧ tsOf ln = t := by
  rcases ln with _ | ⟨⟨rt, mm⟩⟩
  · simp [isReady] at h
  · rcases rt with _ | tf
    · simp [isReady] at h
    · rcases tf with t | _
      · rcases mm with _ | mf
        · simp [isReady] at h
        · rcases mf with m | _
          · exact ⟨t, m, rfl, h, rfl⟩
          · simp [isReady] at h
      · simp [isReady] at h

/-- Destructor for a well-formed line. -/
theorem wfLine_shape (ln : LogLine) (h : wfLine ln = true) :
    ∃ t mf, ln = .parsed ⟨some (.numeric t), some mf⟩ ∧ tsOf ln = t := by
  rcases ln with _ | ⟨⟨rt, mm⟩⟩
  · simp [wfLine] at h
  · rcases rt with _ | tf
    · simp [wfLine] at h
    · rcases tf with t | _
      · rcases mm with _ | mf
        · simp [wfLine] at h
        · exact ⟨t, mf, rfl, rfl⟩
      · simp [wfLine] at h

/-- A start match always overwrites start_timestamp with its own
timestamp. -/
theorem checkEntry_start (s : Option Int) (ln : LogLine) (h : isStart ln = true) :
    checkEntry s ln = .next (some (tsOf ln)) := by
  obtain ⟨t, m, rfl, hm, hts⟩ := isStart_shape ln h
  rw [hts]
  simp [checkEntry, hm]

/-- A ready match with a recorded start returns the timestamp difference. -/
theorem checkEntry_ready_some (st : Int) (ln : LogLine) (h : isReady ln = true) :
    checkEntry (some st) ln = .found (tsOf ln - st) := by
  obtain ⟨t, m, rfl, hm, hts⟩ := isReady_shape ln h
  rw [hts]
  simp [checkEntry, ready_not_start m hm, hm]

/-- A ready match with no recorded start is ignored. -/
theorem checkEntry_ready_none (ln : LogLine) (h : isReady ln = true) :
    checkEntry none ln = .next none := by
  obtain ⟨t, m, rfl, hm, -⟩ := isReady_shape ln h
  simp [checkEntry, ready_not_start m hm]

/-- A well-formed line matching neither pattern leaves the state unchanged. -/
theorem checkEntry_skip (s : Option Int) (ln : LogLine) (hw : wfLine ln = true)
    (h1 : isStart ln = false) (h2 : isReady ln = false) :
    checkEntry s ln = .next s := by
  obtain ⟨t, mf, rfl, -⟩ := wfLine_shape ln hw
  rcases mf with m | _
  · simp only [isStart] at h1
    simp only [isReady] at h2
    cases s <;> simp [checkEntry, h1, h2]
  · cases s <;> simp [checkEntry]

/-- A well-formed line never raises. -/
theorem checkEntry_no_raise (s : Option Int) (ln : LogLine) (hw : wfLine ln = true)
    (e : PyError) : checkEntry s ln ≠ .raised e := by
  obtain ⟨t, mf, rfl, -⟩ := wfLine_shape ln hw
  rcases mf with m | _
  · by_cases h1 : re_match_start m = true <;>
      cases s <;>
        by_cases h2 : re_match_end m = true <;>
          simp [checkEntry, h1, h2]
  · cases s <;> simp [checkEntry]

/-! Run-level lemmas about check_message. -/

/-- Processing a concatenation: a prefix that is still running hands its
state to the rest. -/
theorem check_message_append_running (A B : List LogLine) (s s1 : Option Int)
    (h : check_message s A = .running s1) :
    check_message s (A ++ B) = check_message s1 B := by
  induction A generalizing s with
  | nil =>
    simp only [check_message] at h
    cases h
    simp
  | cons ln A ih =>
    rw [List.cons_append]
    simp only [check_message] at h ⊢
    cases hstep : checkEntry s ln <;> rw [hstep] at h
    · exact ih _ h
    · cases h
    · cases h

/-- Processing a concatenation: a prefix that already returned decides the
whole run. -/
theorem check_message_append_returned (A B : List LogLine) (s : Option Int) (d : Int)
    (h : check_message s A = .returned d) :
    check_message s (A ++ B) = .returned d := by
  induction A generalizing s with
  | nil => cases h
  | cons ln A ih =>
    rw [List.cons_append]
    simp only [check_message] at h ⊢
    cases hstep : checkEntry s ln <;> rw [hstep] at h
    · exact ih _ h
    · exact h
    · cases h

/-- A run over well-formed lines never crashes. -/
theorem check_message_no_crash (L : List LogLine) (hw : ∀ ln ∈ L, wfLine ln = true)
    (s : Option Int) (e : PyError) : check_message s L ≠ .crashed e := by
  induction L generalizing s with
  | nil => simp [check_message]
  | cons ln L ih =>
    simp only [check_message]
    cases hstep : checkEntry s ln
    · exact ih (fun x hx => hw x (List.mem_cons_of_mem ln hx)) _
    · simp
    · exact absurd hstep
        (checkEntry_no_raise s ln (hw ln (List.mem_cons_self ln L)) _)

/-- Over well-formed lines none of which is a ready match, the run keeps
waiting (in some state). -/
theorem check_message_no_ready (L : List LogLine) (hw : ∀ ln ∈ L, wfLine ln = true)
    (hr : ∀ ln ∈ L, isReady ln = false) (s : Option Int) :
    ∃ s1, check_message s L = .running s1 := by
  induction L generalizing s with
  | nil => exact ⟨s, rfl⟩
  | cons ln L ih =>
    have hwl := hw ln (List.mem_cons_self ln L)
    have hw' := fun x hx => hw x (List.mem_cons_of_mem ln hx)
    have hr' := fun x hx => hr x (List.mem_cons_of_mem ln hx)
    simp only [check_message]
    by_cases hst : isStart ln = true
    · rw [checkEntry_start s ln hst]
      exact ih hw' hr' _
    · rw [checkEntry_skip s ln hwl (Bool.eq_false_iff.2 hst)
        (hr ln (List.mem_cons_self ln L))]
      exact ih hw' hr' _

/-- Over well-formed lines matching neither pattern, the run keeps waiting
in the same state. -/
theorem check_message_preserve (L : List LogLine) (hw : ∀ ln ∈ L, wfLine ln = true)
    (hs : ∀ ln ∈ L, isStart ln = false) (hr : ∀ ln ∈ L, isReady ln = false)
    (s : Option Int) : check_message s L = .running s := by
  induction L with
  | nil => rfl
  | cons ln L ih =>
    simp only [check_message]
    rw [checkEntry_skip s ln (hw ln (List.mem_cons_self ln L))
      (hs ln (List.mem_cons_self ln L)) (hr ln (List.mem_cons_self ln L))]
    exact ih (fun x hx => hw x (List.mem_cons_of_mem ln hx))
      (fun x hx => hs x (List.mem_cons_of_mem ln hx))
      (fun x hx => hr x (List.mem_cons_of_mem ln hx))

/-- Inversion: a return in one step means a ready match while a start was
recorded. -/
theorem checkEntry_found_inv (s : Option Int) (ln : LogLine) (d : Int)
    (h : checkEntry s ln = .found d) :
    isReady ln = true ∧ ∃ st, s = some st ∧ d = tsOf ln - st := by
  rcases ln with _ | ⟨⟨rt, mm⟩⟩
  · simp [checkEntry] at h
  · rcases rt with _ | tf
    · simp [checkEntry] at h
    · rcases tf with t | _
      · rcases mm with _ | mf
        · simp [checkEntry] at h
        · rcases mf with m | _
          · by_cases h1 : re_match_start m = true
            · simp [checkEntry, h1] at h
            · rcases s with _ | st
              · simp [checkEntry, h1] at h
              · by_cases h2 : re_match_end m = true
                · simp only [checkEntry, h1, Bool.false_eq_true, if_false, h2,
                    if_true, EntryOut.found.injEq] at h
                  exact ⟨by simpa [isReady] using h2, st, rfl, by simp [tsOf, h]⟩
                · simp [checkEntry, h1, h2] at h
          · simp [checkEntry] at h
      · simp [checkEntry] at h

/-- Inversion: from a recorded start the state never becomes unset again. -/
theorem checkEntry_next_some_inv (t : Int) (ln : LogLine) (s : Option Int)
    (h : checkEntry (some t) ln = .next s) : ∃ u, s = some u := by
  rcases ln with _ | ⟨⟨rt, mm⟩⟩
  · simp [checkEntry] at h
  · rcases rt with _ | tf
    · simp [checkEntry] at h
    · rcases tf with ts | _
      · rcases mm with _ | mf
        · simp [checkEntry] at h
        · rcases mf with m | _
          · by_cases h1 : re_match_start m = true
            · simp only [checkEntry, h1, if_true, EntryOut.next.injEq] at h
              exact ⟨ts, h.symm⟩
            · by_cases h2 : re_match_end m = true
              · simp [checkEntry, h1, h2] at h
              · simp only [checkEntry, h1, Bool.false_eq_true, if_false, h2,
                  EntryOut.next.injEq] at h
                exact ⟨t, h.symm⟩
          · simp only [checkEntry, EntryOut.next.injEq] at h
            exact ⟨t, h.symm⟩
      · simp [checkEntry] at h

/-- Inversion: from the unset state, one step either stays unset or records
a start match. -/
theorem checkEntry_next_none_inv (ln : LogLine) (s : Option Int)
    (h : checkEntry none ln = .next s) :
    s = none ∨ (isStart ln = true ∧ s = some (tsOf ln)) := by
  rcases ln with _ | ⟨⟨rt, mm⟩⟩
  · simp [checkEntry] at h
  · rcases rt with _ | tf
    · simp [checkEntry] at h
    · rcases tf with ts | _
      · rcases mm with _ | mf
        · simp [checkEntry] at h
        · rcases mf with m | _
          · by_cases h1 : re_match_start m = true
            · simp only [checkEntry, h1, if_true, EntryOut.next.injEq] at h
              exact Or.inr ⟨by simpa [isStart] using h1, by simp [tsOf, h.symm]⟩
            · simp only [checkEntry, h1, Bool.false_eq_true, if_false,
                EntryOut.next.injEq] at h
              exact Or.inl h.symm
          · simp only [checkEntry, EntryOut.next.injEq] at h
            exact Or.inl h.symm
      · simp [checkEntry] at h

/-- startAt at the head of a cons. -/
theorem startAt_cons_zero (ln : LogLine) (L : List LogLine) :
    startAt (ln :: L) 0 ↔ isStart ln = true := by
  simp [startAt]

/-- startAt shifted across a cons. -/
theorem startAt_cons_succ (ln : LogLine) (L : List LogLine) (i : Nat) :
    startAt (ln :: L) (i + 1) ↔ startAt L i := by
  simp [startAt, Nat.succ_lt_succ_iff]

/-- readyAt at the head of a cons. -/
theorem readyAt_cons_zero (ln : LogLine) (L : List LogLine) :
    readyAt (ln :: L) 0 ↔ isReady ln = true := by
  simp [readyAt]

/-- readyAt shifted across a cons. -/
theorem readyAt_cons_succ (ln : LogLine) (L : List LogLine) (j : Nat) :
    readyAt (ln :: L) (j + 1) ↔ readyAt L j := by
  simp [readyAt, Nat.succ_lt_succ_iff]

/-- A run that returned from a recorded-start state returned at a
ready-pattern line. -/
theorem returned_from_some (L : List LogLine) (t d : Int)
    (h : check_message (some t) L = .returned d) :
    ∃ j, readyAt L j ∧ check_message (some t) (L.take (j + 1)) = .returned d := by
  induction L generalizing t with
  | nil => cases h
  | cons ln L ih =>
    simp only [check_message] at h
    cases hstep : checkEntry (some t) ln with
    | next s2 =>
      rw [hstep] at h
      obtain ⟨u, rfl⟩ := checkEntry_next_some_inv t ln s2 hstep
      obtain ⟨j, hj, htake⟩ := ih u h
      refine ⟨j + 1, (readyAt_cons_succ ln L j).2 hj, ?_⟩
      rw [List.take_succ_cons]
      simp only [check_message, hstep]
      exact htake
    | found d2 =>
      rw [hstep] at h
      cases h
      obtain ⟨hr, -⟩ := checkEntry_found_inv (some t) ln d hstep
      refine ⟨0, (readyAt_cons_zero ln L).2 hr, ?_⟩
      simp [check_message, hstep]
    | raised e =>
      rw [hstep] at h
      cases h

/-- A run that returned from the initial state saw a start match strictly
before the ready match it returned at. -/
theorem returned_from_none (L : List LogLine) (d : Int)
    (h : check_message none L = .returned d) :
    ∃ i j, i < j ∧ startAt L i ∧ readyAt L j ∧
      check_message none (L.take (j + 1)) = .returned d := by
  induction L with
  | nil => cases h
  | cons ln L ih =>
    simp only [check_message] at h
    cases hstep : checkEntry none ln with
    | next s2 =>
      rw [hstep] at h
      rcases checkEntry_next_none_inv ln s2 hstep with rfl | ⟨hsl, rfl⟩
      · obtain ⟨i, j, hij, hi, hj, htake⟩ := ih h
        refine ⟨i + 1, j + 1, by omega, (startAt_cons_succ ln L i).2 hi,
          (readyAt_cons_succ ln L j).2 hj, ?_⟩
        rw [List.take_succ_cons]
        simp only [check_message, hstep]
        exact htake
      · obtain ⟨j, hj, htake⟩ := returned_from_some L (tsOf ln) d h
        refine ⟨0, j + 1, by omega, (startAt_cons_zero ln L).2 hsl,
          (readyAt_cons_succ ln L j).2 hj, ?_⟩
        rw [List.take_succ_cons]
        simp only [check_message, hstep]
        exact htake
    | found d2 =>
      rw [hstep] at h
      obtain ⟨-, st, hst, -⟩ := checkEntry_found_inv none ln d2 hstep
      cases hst
    | raised e =>
      rw [hstep] at h
      cases h

/-- With a recorded start, a run over a prefix containing a ready match
cannot still be waiting. -/
theorem ready_not_running_some (L : List LogLine) (t : Int) (j : Nat)
    (hj : readyAt L j) (s1 : Option Int) :
    check_message (some t) L ≠ .running s1 := by
  induction L generalizing t j with
  | nil =>
    rcases hj with ⟨h, -⟩
    simp at h
  | cons ln L ih =>
    intro h
    simp only [check_message] at h
    cases hstep : checkEntry (some t) ln with
    | next s2 =>
      rw [hstep] at h
      obtain ⟨u, rfl⟩ := checkEntry_next_some_inv t ln s2 hstep
      rcases j with _ | j
      · have hr := (readyAt_cons_zero ln L).1 hj
        rw [checkEntry_ready_some t ln hr] at hstep
        cases hstep
      · exact ih u j ((readyAt_cons_succ ln L j).1 hj) h
    | found d2 =>
      rw [hstep] at h
      cases h
    | raised e =>
      rw [hstep] at h
      cases h

/-- From the initial state, a run over a prefix containing a start match
followed by a ready match cannot still be waiting. -/
theorem pair_not_running_none (L : List LogLine) (i j : Nat) (hij : i < j)
    (hi : startAt L i) (hj : readyAt L j) (s1 : Option Int) :
    check_message none L ≠ .running s1 := by
  induction L generalizing i j with
  | nil =>
    rcases hi with ⟨h, -⟩
    simp at h
  | cons ln L ih =>
    intro h
    simp only [check_message] at h
    cases hstep : checkEntry none ln with
    | next s2 =>
      rw [hstep] at h
      rcases j with _ | j
      · omega
      · rcases i with _ | i
        · have hsl := (startAt_cons_zero ln L).1 hi
          have h2 := checkEntry_start none ln hsl
          rw [hstep] at h2
          injection h2 with h3
          rw [h3] at h
          exact ready_not_running_some L (tsOf ln) j
            ((readyAt_cons_succ ln L j).1 hj) s1 h
        · rcases checkEntry_next_none_inv ln s2 hstep with rfl | ⟨-, rfl⟩
          · exact ih i j (by omega) ((startAt_cons_succ ln L i).1 hi)
              ((readyAt_cons_succ ln L j).1 hj) h
          · exact ready_not_running_some L (tsOf ln) j
              ((readyAt_cons_succ ln L j).1 hj) s1 h
    | found d2 =>
      rw [hstep] at h
      cases h
    | raised e =>
      rw [hstep] at h
      cases h

/-- NoPair shifts across a cons. -/
theorem NoPair_of_cons (ln : LogLine) (L : List LogLine) (h : NoPair (ln :: L)) :
    NoPair L := by
  intro i j hij hi hj
  exact h (i + 1) (j + 1) (by omega) ((startAt_cons_succ ln L i).2 hi)
    ((readyAt_cons_succ ln L j).2 hj)

/-- Over well-formed lines with no start-then-ready pair, the run from the
initial state keeps waiting. -/
theorem check_message_no_pair (L : List LogLine) (hw : ∀ ln ∈ L, wfLine ln = true)
    (hnp : NoPair L) : ∃ s1, check_message none L = .running s1 := by
  induction L with
  | nil => exact ⟨none, rfl⟩
  | cons ln L ih =>
    have hwl := hw ln (List.mem_cons_self ln L)
    have hw' := fun x hx => hw x (List.mem_cons_of_mem ln hx)
    by_cases hst : isStart ln = true
    · have hnr : ∀ z ∈ L, isReady z = false := by
        intro z hz
        by_contra hzr
        rw [Bool.not_eq_false] at hzr
        obtain ⟨k, hk, hkz⟩ := List.mem_iff_getElem.1 hz
        refine hnp 0 (k + 1) (by omega) ((startAt_cons_zero ln L).2 hst)
          ((readyAt_cons_succ ln L k).2 ⟨hk, ?_⟩)
        rw [List.get_eq_getElem, hkz]
        exact hzr
      simp only [check_message, checkEntry_start none ln hst]
      exact check_message_no_ready L hw' hnr _
    · by_cases hrd : isReady ln = true
      · simp only [check_message, checkEntry_ready_none ln hrd]
        exact ih hw' (NoPair_of_cons ln L hnp)
      · simp only [check_message,
          checkEntry_skip none ln hwl (Bool.eq_false_iff.2 hst)
            (Bool.eq_false_iff.2 hrd)]
        exact ih hw' (NoPair_of_cons ln L hnp)

/-- Membership in a stream prefix. -/
theorem mem_streamTake (s : Nat → LogLine) (n : Nat) (ln : LogLine)
    (h : ln ∈ streamTake s n) : ∃ k, k < n ∧ ln = s k := by
  simp only [streamTake, List.mem_map, List.mem_range] at h
  obtain ⟨k, hk, rfl⟩ := h
  exact ⟨k, hk, rfl⟩

/-- startAt on a stream prefix is isStart on the stream. -/
theorem startAt_streamTake (s : Nat → LogLine) (n i : Nat) (hi : i < n) :
    startAt (streamTake s n) i ↔ isStart (s i) = true := by
  simp [startAt, streamTake, hi]

/-- readyAt on a stream prefix is isReady on the stream. -/
theorem readyAt_streamTake (s : Nat → LogLine) (n j : Nat) (hj : j < n) :
    readyAt (streamTake s n) j ↔ isReady (s j) = true := by
  simp [readyAt, streamTake, hj]

/-- Over well-formed lines, a prefix holding a start-then-ready pair makes
the run return. -/
theorem pair_returns (L : List LogLine) (hw : ∀ ln ∈ L, wfLine ln = true)
    (i j : Nat) (hij : i < j) (hi : startAt L i) (hj : readyAt L j) :
    ∃ d, check_message none L = .returned d := by
  cases hres : check_message none L with
  | returned d => exact ⟨d, rfl⟩
  | crashed e => exact absurd hres (check_message_no_crash L hw none e)
  | running s1 => exact absurd hres (pair_not_running_none L i j hij hi hj s1)

/-! Claim theorems. -/

/-- C7: over a stream of well-formed log entries, check_message returns a
duration iff the stream somewhere holds a start-pattern match followed
strictly later by a ready-pattern match; and if neither pattern ever
appears it stays waiting after every finite prefix (blocks indefinitely,
returning no value and no error). -/
theorem check_message_blocking_iff (s : Nat → LogLine)
    (hw : ∀ i, wfLine (s i) = true) :
    ((∃ n d, prefixRun s n = .returned d) ↔
      (∃ i j, i < j ∧ isStart (s i) = true ∧ isReady (s j) = true)) ∧
    ((∀ i, isStart (s i) = false ∧ isReady (s i) = false) →
      ∀ n, prefixRun s n = .running none) := by
  constructor
  · constructor
    · rintro ⟨n, d, h⟩
      obtain ⟨i, j, hij, hi, hj, -⟩ := returned_from_none _ d h
      have hjlen : j < n := by
        rcases hj with ⟨hlen, -⟩
        simpa [streamTake] using hlen
      exact ⟨i, j, hij, (startAt_streamTake s n i (by omega)).1 hi,
        (readyAt_streamTake s n j hjlen).1 hj⟩
    · rintro ⟨i, j, hij, hi, hj⟩
      have hwl : ∀ ln ∈ streamTake s (j + 1), wfLine ln = true := by
        intro ln hln
        obtain ⟨k, -, rfl⟩ := mem_streamTake s (j + 1) ln hln
        exact hw k
      obtain ⟨d, hd⟩ := pair_returns (streamTake s (j + 1)) hwl i j hij
        ((startAt_streamTake s (j + 1) i (by omega)).2 hi)
        ((readyAt_streamTake s (j + 1) j (by omega)).2 hj)
      exact ⟨j + 1, d, hd⟩
  · intro hno n
    apply check_message_preserve
    · intro ln hln
      obtain ⟨k, -, rfl⟩ := mem_streamTake s n ln hln
      exact hw k
    · intro ln hln
      obtain ⟨k, -, rfl⟩ := mem_streamTake s n ln hln
      exact (hno k).1
    · intro ln hln
      obtain ⟨k, -, rfl⟩ := mem_streamTake s n ln hln
      exact (hno k).2

/-- C7 witness: on the constant stream of a well-formed non-matching line,
no prefix returns, no pair exists, and every prefix is still waiting. -/
theorem check_message_blocking_iff_witness :
    ((∃ n d, prefixRun (fun _ => sampleOther) n = .returned d) ↔
      (∃ i j : Nat, i < j ∧ isStart ((fun _ => sampleOther) i) = true ∧
        isReady ((fun _ => sampleOther) j) = true)) ∧
    ((∀ i : Nat, isStart ((fun _ => sampleOther) i) = false ∧
        isReady ((fun _ => sampleOther) i) = false) →
      ∀ n, prefixRun (fun _ => sampleOther) n = .running none) :=
  check_message_blocking_iff (fun _ => sampleOther) (fun _ => rfl)

/-- C8: a run from the initial state returns only at a ready-pattern line
strictly preceded by a start-pattern line (the same value is already
returned on the prefix ending at that ready line), and a ready match seen
while no start has been recorded is ignored, the loop simply moving on. -/
theorem check_message_no_premature_return (L : List LogLine) :
    (∀ d, check_message none L = .returned d →
      ∃ i j, i < j ∧ startAt L i ∧ readyAt L j ∧
        check_message none (L.take (j + 1)) = .returned d) ∧
    (∀ ln rest, isReady ln = true →
      check_message none (ln :: rest) = check_message none rest) := by
  constructor
  · intro d h
    exact returned_from_none L d h
  · intro ln rest h
    simp only [check_message, checkEntry_ready_none ln h]

/-- C8 witness: on ready@25, start@10, ready@40 the run returns 30 = 40 -
10, with the return point the second ready line; the leading ready line is
skipped. -/
theorem check_message_no_premature_return_witness :
    (∃ i j, i < j ∧ startAt [sampleReady, sampleStart, sampleReady2] i ∧
      readyAt [sampleReady, sampleStart, sampleReady2] j ∧
      check_message none ([sampleReady, sampleStart, sampleReady2].take (j + 1)) =
        .returned 30) ∧
    check_message none (sampleReady :: [sampleStart, sampleReady2]) =
      check_message none [sampleStart, sampleReady2] :=
  ⟨(check_message_no_premature_return [sampleReady, sampleStart, sampleReady2]).1
      30 (by decide),
    (check_message_no_premature_return [sampleReady, sampleStart, sampleReady2]).2
      sampleReady [sampleStart, sampleReady2] (by decide)⟩

/-- C1 (amended): over well-formed log entries, let rd be the first
ready-pattern match that is preceded by some start-pattern match and st the
last start-pattern match before it (no start between st and rd, no
start-then-ready pair earlier); then check_message returns exactly rd's
timestamp minus st's timestamp. -/
theorem check_message_first_pair_duration (L A B C : List LogLine)
    (st rd : LogLine) (hw : ∀ ln ∈ L, wfLine ln = true)
    (hL : L = A ++ st :: (B ++ rd :: C))
    (hst : isStart st = true) (hrd : isReady rd = true)
    (hB : ∀ ln ∈ B, isStart ln = false ∧ isReady ln = false)
    (hA : NoPair A) :
    check_message none L = .returned (tsOf rd - tsOf st) := by
  subst hL
  have hwA : ∀ ln ∈ A, wfLine ln = true := by
    intro ln h
    exact hw ln (by simp [h])
  have hwB : ∀ ln ∈ B, wfLine ln = true := by
    intro ln h
    exact hw ln (by simp [h])
  obtain ⟨sA, hrunA⟩ := check_message_no_pair A hwA hA
  rw [check_message_append_running A (st :: (B ++ rd :: C)) none sA hrunA]
  simp only [check_message, checkEntry_start sA st hst]
  have hpres := check_message_preserve B hwB (fun ln h => (hB ln h).1)
    (fun ln h => (hB ln h).2) (some (tsOf st))
  rw [check_message_append_running B (rd :: C) (some (tsOf st)) (some (tsOf st)) hpres]
  simp only [check_message, checkEntry_ready_some (tsOf st) rd hrd]

/-- C1 witness: with nothing before the pair, start@10 then ready@25 yields
15. -/
theorem check_message_first_pair_duration_witness :
    check_message none [sampleStart, sampleReady] = .returned 15 := by
  have h := check_message_first_pair_duration [sampleStart, sampleReady]
    [] [] [] sampleStart sampleReady (by decide) rfl (by decide) (by decide)
    (by simp) ?_
  · simpa using h
  · intro i j hij hi hj
    rcases hi with ⟨h2, -⟩
    simp at h2

/-- C1 counterexample: in start@10, ready@25, start@30, ready@40 the third
and fourth lines are a start match followed later by a ready match with no
intervening start match, yet the run returns 15 = 25 - 10 from the earlier
pair, not 40 - 30 = 10 as the claim reads for this pair. -/
theorem check_message_first_pair_duration_cex :
    startAt cexList 2 ∧ readyAt cexList 3 ∧
      (∀ k, 2 < k → k < 3 → ¬ startAt cexList k) ∧
      check_message none cexList = .returned 15 ∧
      tsOf sampleReady2 - tsOf sampleStart2 = 10 ∧ (15 : Int) ≠ 10 := by
  refine ⟨⟨by decide, by decide⟩, ⟨by decide, by decide⟩, ?_, by decide,
    by decide, by decide⟩
  intro k h1 h2
  omega

/-- C3: over well-formed log entries, if a second start match occurs after
a first one and before any ready match, the returned duration is measured
from the second (latest) start timestamp, not the first. -/
theorem check_message_last_start_wins (L A B C D : List LogLine)
    (st1 st2 rd : LogLine) (hw : ∀ ln ∈ L, wfLine ln = true)
    (hL : L = A ++ st1 :: (B ++ st2 :: (C ++ rd :: D)))
    (hst1 : isStart st1 = true) (hst2 : isStart st2 = true)
    (hrd : isReady rd = true)
    (hA : ∀ ln ∈ A, isReady ln = false)
    (hB : ∀ ln ∈ B, isReady ln = false)
    (hC : ∀ ln ∈ C, isStart ln = false ∧ isReady ln = false) :
    check_message none L = .returned (tsOf rd - tsOf st2) := by
  subst hL
  have hwA : ∀ ln ∈ A, wfLine ln = true := by
    intro ln h
    exact hw ln (by simp [h])
  have hwB : ∀ ln ∈ B, wfLine ln = true := by
    intro ln h
    exact hw ln (by simp [h])
  have hwC : ∀ ln ∈ C, wfLine ln = true := by
    intro ln h
    exact hw ln (by simp [h])
  obtain ⟨sA, hrunA⟩ := check_message_no_ready A hwA hA none
  rw [check_message_append_running A (st1 :: (B ++ st2 :: (C ++ rd :: D))) none sA hrunA]
  simp only [check_message, checkEntry_start sA st1 hst1]
  obtain ⟨sB, hrunB⟩ := check_message_no_ready B hwB hB (some (tsOf st1))
  rw [check_message_append_running B (st2 :: (C ++ rd :: D)) (some (tsOf st1)) sB hrunB]
  simp only [check_message, checkEntry_start sB st2 hst2]
  have hpres := check_message_preserve C hwC (fun ln h => (hC ln h).1)
    (fun ln h => (hC ln h).2) (some (tsOf st2))
  rw [check_message_append_running C (rd :: D) (some (tsOf st2)) (some (tsOf st2)) hpres]
  simp only [check_message, checkEntry_ready_some (tsOf st2) rd hrd]

/-- C3 witness: start@10, start@30, ready@40 yields 10 = 40 - 30, measured
from the second start. -/
theorem check_message_last_start_wins_witness :
    check_message none [sampleStart, sampleStart2, sampleReady2] = .returned 10 := by
  have h := check_message_last_start_wins [sampleStart, sampleStart2, sampleReady2]
    [] [] [] [] sampleStart sampleStart2 sampleReady2 (by decide) rfl
    (by decide) (by decide) (by decide) (by simp) (by simp) (by simp)
  simpa using h

/-- C2 (amended): an entry whose MESSAGE field is present but not a string
is silently skipped by the isinstance check: it never produces a match, the
loop simply continues with the rest of the stream in the same state; but a
line that fails to parse as JSON is not skipped, it raises an uncaught
json.JSONDecodeError that aborts the run (see the counterexample), as does
a missing MESSAGE or timestamp field. -/
theorem check_message_nontext_skipped (s : Option Int) (t : Int)
    (rest : List LogLine) :
    check_message s (.parsed ⟨some (.numeric t), some .nonText⟩ :: rest) =
      check_message s rest := rfl

/-- C2 counterexample: a line that fails to parse as JSON is not silently
skipped: alone it crashes the run with json.JSONDecodeError, and placed
before a start/ready pair it prevents the match that skipping would have
produced. -/
theorem check_message_nontext_skipped_cex :
    check_message none [.malformed] = .crashed .jsonDecode ∧
      check_message none [.malformed, sampleStart, sampleReady] =
        .crashed .jsonDecode ∧
      check_message none [sampleStart, sampleReady] = .returned 15 := by
  refine ⟨rfl, rfl, by decide⟩

/-- C10: the loop body reads and converts the __REALTIME_TIMESTAMP field
and reads the MESSAGE field before the non-string skip check, so an entry
with a missing timestamp field, a timestamp int() rejects, or a missing
MESSAGE field aborts check_message with an uncaught exception whatever its
message is, even one the skip check would have discarded. -/
theorem check_message_reads_fields_first (s : Option Int)
    (mv : Option MessageField) (t : Int) (rest : List LogLine) :
    check_message s (.parsed ⟨none, mv⟩ :: rest) =
        .crashed (.keyError "__REALTIME_TIMESTAMP") ∧
      check_message s (.parsed ⟨some .nonNumeric, mv⟩ :: rest) =
        .crashed .intParse ∧
      check_message s (.parsed ⟨some (.numeric t), none⟩ :: rest) =
        .crashed (.keyError "MESSAGE") :=
  ⟨rfl, rfl, rfl⟩

/-- C9: a zero or negative restart count runs no cycle, restart_by_count
returns the empty list, and print_results then raises ValueError on min()
of an empty sequence, so main crashes instead of printing a summary; a
printed summary is only reachable for a count of at least 1. -/
theorem mainProg_nonpositive_count (env : Env) (count : Int) :
    (count ≤ 0 → restart_by_count env count = .ok [] ∧
      mainProg env count = .exn .emptyMin) ∧
    (∀ s, mainProg env count = .summary s → 1 ≤ count) := by
  have key : count ≤ 0 → restart_by_count env count = .ok [] ∧
      mainProg env count = .exn .emptyMin := by
    intro hc
    have h0 : count.toNat = 0 := Int.toNat_of_nonpos hc
    have h1 : restart_by_count env count = .ok [] := by
      unfold restart_by_count
      rw [h0]
      rfl
    refine ⟨h1, ?_⟩
    unfold mainProg
    rw [h1]
    rfl
  refine ⟨key, ?_⟩
  intro s hs
  by_contra hlt
  have hc : count ≤ 0 := by omega
  obtain ⟨-, h2⟩ := key hc
  rw [h2] at hs
  cases hs

/-- C9 witness: with count 0 the run returns no measurement and main
crashes on the empty summary. -/
theorem mainProg_nonpositive_count_witness :
    restart_by_count envGood 0 = .ok [] ∧ mainProg envGood 0 = .exn .emptyMin :=
  (mainProg_nonpositive_count envGood 0).1 (by decide)

/-- If the first j cycles succeed and cycle lo + j gets a non-zero
supervisor return code, the loop exits with code 1 and the diagnostic for
that cycle. -/
theorem restart_by_count_from_exit (env : Env) (j : Nat) :
    ∀ lo fuel acc, j < fuel →
    (∀ k, lo ≤ k → k < lo + j → env.restartCode k = 0 ∧
      ∃ d, check_message none (env.logs k) = .returned d) →
    env.restartCode (lo + j) ≠ 0 →
    restart_by_count_from env lo fuel acc =
      .exited (SERVICE_NAME, env.restartCode (lo + j)) 1 := by
  induction j with
  | zero =>
    intro lo fuel acc hfuel hpre hbad
    rcases fuel with _ | fuel
    · omega
    · rw [Nat.add_zero] at hbad
      have h1 : restart_service (env.restartCode lo) =
          Except.error (SERVICE_NAME, env.restartCode lo) := by
        unfold restart_service
        rw [if_pos (bne_iff_ne.2 hbad)]
      simp only [restart_by_count_from, h1, Nat.add_zero]
  | succ j ih =>
    intro lo fuel acc hfuel hpre hbad
    rcases fuel with _ | fuel
    · omega
    · obtain ⟨hc0, d, hd⟩ := hpre lo (Nat.le_refl lo) (by omega)
      have h1 : restart_service (env.restartCode lo) = Except.ok () := by
        rw [hc0]
        rfl
      simp only [restart_by_count_from, h1, hd]
      have heq : lo + 1 + j = lo + (j + 1) := by omega
      rw [show env.restartCode (lo + (j + 1)) =
        env.restartCode (lo + 1 + j) from by rw [heq]] at hbad ⊢
      exact ih (lo + 1) fuel (acc ++ [d]) (by omega)
        (fun k h1 h2 => hpre k (by omega) (by omega)) hbad

/-- C4: if every cycle before m succeeds and is measured, and on cycle m
the supervisor restart returns a non-zero status, main terminates with exit
code 1 carrying the diagnostic that names the service and the status; it
runs no further cycle and prints no summary. -/
theorem mainProg_supervisor_failure (env : Env) (count : Int) (m : Nat)
    (hm1 : 1 ≤ m) (hmc : (m : Int) ≤ count)
    (hpre : ∀ k, 1 ≤ k → k < m → env.restartCode k = 0 ∧
      ∃ d, check_message none (env.logs k) = .returned d)
    (hbad : env.restartCode m ≠ 0) :
    mainProg env count = .exited (SERVICE_NAME, env.restartCode m) 1 := by
  have hfuel : m - 1 < count.toNat := by omega
  have heq : 1 + (m - 1) = m := by omega
  have h := restart_by_count_from_exit env (m - 1) 1 count.toNat [] hfuel
    (fun k h1 h2 => hpre k h1 (by omega)) (by rw [heq]; exact hbad)
  rw [heq] at h
  unfold mainProg restart_by_count
  rw [h]

/-- C4 witness: the supervisor fails at once on cycle 1 with code 1. -/
theorem mainProg_supervisor_failure_witness :
    mainProg envFail 1 = .exited (SERVICE_NAME, 1) 1 :=
  mainProg_supervisor_failure envFail 1 1 (by decide) (by decide)
    (fun k h1 h2 => absurd h1 (by omega)) (by decide)

/-- If every cycle in the window succeeds with a measured duration, the
loop returns them appended in cycle order. -/
theorem restart_by_count_from_ok (env : Env) (d : Nat → Int) :
    ∀ fuel lo acc,
    (∀ k, lo ≤ k → k < lo + fuel → env.restartCode k = 0 ∧
      check_message none (env.logs k) = .returned (d k)) →
    restart_by_count_from env lo fuel acc =
      .ok (acc ++ (List.range' lo fuel).map d) := by
  intro fuel
  induction fuel with
  | zero =>
    intro lo acc hpre
    simp [restart_by_count_from]
  | succ fuel ih =>
    intro lo acc hpre
    obtain ⟨hc0, hd⟩ := hpre lo (Nat.le_refl lo) (by omega)
    have h1 : restart_service (env.restartCode lo) = Except.ok () := by
      rw [hc0]
      rfl
    simp only [restart_by_count_from, h1, hd]
    rw [ih (lo + 1) (acc ++ [d lo]) (fun k hk1 hk2 => hpre k (by omega) (by omega))]
    rw [List.range'_succ, List.map_cons, List.append_cons]
    simp

/-- C5: whenever every one of the n cycles gets a successful supervisor
restart and a measured duration, restart_by_count returns a list of exactly
n durations in which the entry at position i is the duration measured
during cycle i + 1 — n measurements in restart order. -/
theorem restart_by_count_returns_n (env : Env) (d : Nat → Int) (n : Nat)
    (hpre : ∀ k, 1 ≤ k → k ≤ n → env.restartCode k = 0 ∧
      check_message none (env.logs k) = .returned (d k)) :
    ∃ rs, restart_by_count env (n : Int) = .ok rs ∧ rs.length = n ∧
      ∀ i, ∀ h : i < rs.length, rs.get ⟨i, h⟩ = d (i + 1) := by
  have h0 : ((n : Int)).toNat = n := Int.toNat_natCast n
  have hmain := restart_by_count_from_ok env d n 1 []
    (fun k h1 h2 => hpre k h1 (by omega))
  refine ⟨(List.range' 1 n).map d, ?_, by simp, ?_⟩
  · unfold restart_by_count
    rw [h0]
    simpa using hmain
  · intro i h
    simp [List.get_eq_getElem, List.getElem_map, List.getElem_range', Nat.add_comm]

/-- C5 witness: two successful cycles, each measuring 15, give the ordered
list of two measurements. -/
theorem restart_by_count_returns_n_witness :
    ∃ rs, restart_by_count envGood ((2 : Nat) : Int) = .ok rs ∧ rs.length = 2 ∧
      ∀ i, ∀ h : i < rs.length, rs.get ⟨i, h⟩ = (fun _ => (15 : Int)) (i + 1) :=
  restart_by_count_returns_n envGood (fun _ => 15) 2
    (fun _ _ _ => ⟨rfl, rfl⟩)

/-- Python min over a nonempty list, folded from the head, is at most the
initial value. -/
theorem foldl_min_le_init (t : List Int) : ∀ a : Int, t.foldl min a ≤ a := by
  induction t with
  | nil => intro a; exact le_refl a
  | cons b t ih =>
    intro a
    calc (b :: t).foldl min a = t.foldl min (min a b) := rfl
    _ ≤ min a b := ih (min a b)
    _ ≤ a := min_le_left a b

/-- Python min over a nonempty list is at most every member. -/
theorem foldl_min_le (t : List Int) : ∀ a : Int, ∀ x ∈ a :: t, t.foldl min a ≤ x := by
  induction t with
  | nil =>
    intro a x hx
    rw [List.mem_singleton] at hx
    exact hx ▸ le_refl a
  | cons b t ih =>
    intro a x hx
    rcases List.mem_cons.1 hx with rfl | hx
    · exact foldl_min_le_init (b :: t) x
    · rcases List.mem_cons.1 hx with rfl | hx
      · calc (x :: t).foldl min a = t.foldl min (min a x) := rfl
        _ ≤ min a x := foldl_min_le_init t (min a x)
        _ ≤ x := min_le_right a x
      · exact ih (min a b) x (List.mem_cons_of_mem _ hx)

/-- Python max over a nonempty list, folded from the head, is at least the
initial value. -/
theorem le_foldl_max_init (t : List Int) : ∀ a : Int, a ≤ t.foldl max a := by
  induction t with
  | nil => intro a; exact le_refl a
  | cons b t ih =>
    intro a
    calc a ≤ max a b := le_max_left a b
    _ ≤ t.foldl max (max a b) := ih (max a b)
    _ = (b :: t).foldl max a := rfl

/-- Python max over a nonempty list is at least every member. -/
theorem le_foldl_max (t : List Int) : ∀ a : Int, ∀ x ∈ a :: t, x ≤ t.foldl max a := by
  induction t with
  | nil =>
    intro a x hx
    rw [List.mem_singleton] at hx
    exact hx ▸ le_refl a
  | cons b t ih =>
    intro a x hx
    rcases List.mem_cons.1 hx with rfl | hx
    · exact le_foldl_max_init (b :: t) x
    · rcases List.mem_cons.1 hx with rfl | hx
      · calc x ≤ max a x := le_max_right a x
        _ ≤ t.foldl max (max a x) := le_foldl_max_init t (max a x)
        _ = (x :: t).foldl max a := rfl
      · exact ih (max a b) x (List.mem_cons_of_mem _ hx)

/-- Python sum with an initial accumulator. -/
theorem foldl_add_eq (t : List Int) : ∀ c : Int, t.foldl (· + ·) c = c + t.sum := by
  induction t with
  | nil => intro c; simp
  | cons b t ih =>
    intro c
    calc (b :: t).foldl (· + ·) c = t.foldl (· + ·) (c + b) := rfl
    _ = c + b + t.sum := ih (c + b)
    _ = c + (b :: t).sum := by rw [List.sum_cons]; ring

/-- Lower bound for the half-to-even rounded quotient. -/
theorem le_divide_and_round (m a b : Int) (hb : 0 < b) (h : m * b ≤ a) :
    m ≤ divide_and_round a b := by
  have heq := Int.ediv_add_emod a b
  have hrb := Int.emod_lt_of_pos a hb
  have h1 : m * b < (a / b + 1) * b := by nlinarith [heq, hrb, h]
  have h2 : m ≤ a / b := by
    have := (mul_lt_mul_right hb).1 h1
    omega
  unfold divide_and_round py_divmod
  rw [Int.fdiv_eq_ediv _ hb.le, Int.fmod_eq_emod _ hb.le]
  dsimp only
  split
  · split
    · linarith
    · exact h2
  · rename_i hnb
    exact absurd hb hnb

/-- Upper bound for the half-to-even rounded quotient. -/
theorem divide_and_round_le (a b M : Int) (hb : 0 < b) (h : a ≤ M * b) :
    divide_and_round a b ≤ M := by
  have heq := Int.ediv_add_emod a b
  have hr0 := Int.emod_nonneg a (ne_of_gt hb)
  have hq : a / b ≤ M := by
    have h1 : (a / b) * b ≤ M * b := by nlinarith [heq, hr0, h]
    exact (mul_le_mul_right hb).1 h1
  unfold divide_and_round py_divmod
  rw [Int.fdiv_eq_ediv _ hb.le, Int.fmod_eq_emod _ hb.le]
  dsimp only
  split
  · split
    · rename_i hcond
      have hr1 : 1 ≤ a % b := by
        rcases hcond with hgt | hhalf
        · omega
        · omega
      have h2 : (a / b) * b < M * b := by nlinarith [heq, hr1, h]
      have h3 : a / b < M := (mul_lt_mul_right hb).1 h2
      omega
    · exact hq
  · rename_i hnb
    exact absurd hb hnb

/-- C6: for every nonempty list of duration measurements, print_results
reports a total equal to the list sum, an average equal to the timedelta
division of that sum by the count, and the average lies between the
reported min and max. -/
theorem print_results_stats (a : Int) (t : List Int) :
    ∃ s, print_results (a :: t) = .ok s ∧
      s.total = (a :: t).sum ∧
      s.restarts = (a :: t).length ∧
      s.avg = divide_and_round s.total ((a :: t).length : Int) ∧
      s.minT ≤ s.avg ∧ s.avg ≤ s.maxT := by
  have hb : (0 : Int) < ((a :: t).length : Int) := by
    exact_mod_cast Nat.succ_pos t.length
  have htot : (a :: t).foldl (· + ·) 0 = (a :: t).sum := by
    rw [foldl_add_eq]
    ring
  refine ⟨⟨(a :: t).length, (a :: t).foldl (· + ·) 0, t.foldl min a, t.foldl max a,
      divide_and_round ((a :: t).foldl (· + ·) 0) ((a :: t).length : Int)⟩,
    rfl, htot, rfl, rfl, ?_, ?_⟩
  · apply le_divide_and_round _ _ _ hb
    have hmem : ∀ x ∈ a :: t, t.foldl min a ≤ x := foldl_min_le t a
    have hsum := List.card_nsmul_le_sum (a :: t) (t.foldl min a) hmem
    rw [nsmul_eq_mul] at hsum
    rw [htot]
    calc t.foldl min a * ((a :: t).length : Int)
        = ((a :: t).length : Int) * t.foldl min a := by ring
    _ ≤ (a :: t).sum := hsum
  · apply divide_and_round_le _ _ _ hb
    have hmem : ∀ x ∈ a :: t, x ≤ t.foldl max a := le_foldl_max t a
    have hsum := List.sum_le_card_nsmul (a :: t) (t.foldl max a) hmem
    rw [nsmul_eq_mul] at hsum
    rw [htot]
    calc (a :: t).sum ≤ ((a :: t).length : Int) * t.foldl max a := hsum
    _ = t.foldl max a * ((a :: t).length : Int) := by ring
